import Mathlib

/-
Verification of the FleCSPH distributed partitioning and neighbor-search
layer.  The visible sources declare the distributed operations
(src/include/mpi_partition.h: mpi_sort, mpi_branches_exchange) and drive them
from the sedov and noh application drivers; the operations themselves are
modelled here from the design specification, while the driver control flow
(the sedov do-while iteration loop and the noh specialization entry point) is
embedded directly from the sources.
-/

/-- A 3-dimensional integer position (the model uses exact integer
coordinates in place of floating-point ones). -/
structure pnt where
  x : Int
  y : Int
  z : Int
deriving DecidableEq, Repr

/-- A simulation particle ("body" in the source): a stable identifier, the
order-preserving spatial key computed from its position, and its position. -/
structure body where
  id : Nat
  key : Nat
  pos : pnt
deriving DecidableEq, Repr

/-- Total comparison on particles: by spatial key, with ties broken by the
stable identifier, as spec section 4.1 requires for deterministic ordering. -/
def bodyLE (a b : body) : Bool :=
  decide (a.key < b.key) || (a.key == b.key && decide (a.id ≤ b.id))

/-- Does the half-open key interval q = [q.1, q.2) own key k? -/
def ownsKey (q : Nat × Nat) (k : Nat) : Bool :=
  decide (q.1 ≤ k) && decide (k < q.2)

/-- Modelled from the spec: the implementation of mpi_sort is not among the
visible sources (src/include/mpi_partition.h only declares it).  Spec section
4.2 gives the contract: given the partition boundary table bnd and the
per-rank lists of particles, rank r ends up holding exactly those particles
whose key falls in its assigned range [boundary[r], boundary[r+1]), locally
sorted by key with ties broken by the stable identifier, and the multiset of
particles across ranks is unchanged. -/
def mpi_sort (bnd : List Nat) (ranks : List (List body)) : List (List body) :=
  (bnd.zip bnd.tail).map (fun q =>
    (ranks.flatten.filter (fun b => ownsKey q b.key)).mergeSort bodyLE)

/-- Squared Euclidean distance between two positions. -/
def dist2 (a b : pnt) : Int :=
  (a.x - b.x) ^ 2 + (a.y - b.y) ^ 2 + (a.z - b.z) ^ 2

/-- An axis-aligned bounding box. -/
structure box where
  lo : pnt
  hi : pnt
deriving DecidableEq, Repr

/-- Box membership, coordinatewise. -/
def inBox (bx : box) (p : pnt) : Bool :=
  decide (bx.lo.x ≤ p.x) && decide (p.x ≤ bx.hi.x) &&
  decide (bx.lo.y ≤ p.y) && decide (p.y ≤ bx.hi.y) &&
  decide (bx.lo.z ≤ p.z) && decide (p.z ≤ bx.hi.z)

/-- Distance from a coordinate c to the interval [lo, hi] (0 when inside). -/
def axdist (c lo hi : Int) : Int := max (lo - c) (max 0 (c - hi))

/-- Squared minimal distance from a point to a box. -/
def minDist2 (c : pnt) (bx : box) : Int :=
  axdist c.x bx.lo.x bx.hi.x ^ 2 + axdist c.y bx.lo.y bx.hi.y ^ 2 +
    axdist c.z bx.lo.z bx.hi.z ^ 2

/-- Grow a box to cover one more point. -/
def extendBox (bx : box) (p : pnt) : box :=
  ⟨⟨min bx.lo.x p.x, min bx.lo.y p.y, min bx.lo.z p.z⟩,
   ⟨max bx.hi.x p.x, max bx.hi.y p.y, max bx.hi.z p.z⟩⟩

/-- The degenerate box covering exactly one point. -/
def pointBox (p : pnt) : box := ⟨p, p⟩

/-- Bounding box of a particle list (none when the list is empty; spec
section 7 treats a bounding box degenerating to a point as a valid case). -/
def bboxOf : List body → Option box
  | [] => none
  | b :: rest => some (rest.foldl (fun bx c => extendBox bx c.pos) (pointBox b.pos))

/-- A coarse-tree branch: the owning rank and its bounding region.  It
carries no leaf-level particle data. -/
structure branch where
  owner : Nat
  region : box
deriving DecidableEq, Repr

/-- Modelled from the spec: a rank's contribution to Branch Exchange — its
coarse top-level tree node(s) annotated with the owning rank (spec section
4.4).  A rank with no particles contributes an empty branch set. -/
def branchOf (r : Nat) (bs : List body) : List branch :=
  match bboxOf bs with
  | none => []
  | some bx => [⟨r, bx⟩]

/-- The keys a rank contributes to splitter sampling; empty when the rank
has no particles (spec section 4.2). -/
def sampleOf (bs : List body) : List Nat := bs.map body.key

/-- Modelled from the spec: mpi_branches_exchange is only declared in
src/include/mpi_partition.h.  Spec section 4.4: every rank contributes its
coarse branches and all ranks collectively assemble an identical coarse
structure annotated with owning rank; every rank receives the same copy. -/
def mpi_branches_exchange (owned : List (List body)) : List (List branch) :=
  List.replicate owned.length
    (((List.range owned.length).map (fun r => branchOf r (owned.getD r []))).flatten)

/-- Candidate remote ranks for ghosts of rank A, decided from the shared
coarse tree alone: a branch is a candidate when it belongs to another rank
and its region comes within the (squared, inflated) interaction radius H2 of
some particle owned by A (spec section 4.5). -/
def candidateRanks (H2 : Int) (coarse : List branch) (ownA : List body) (A : Nat) :
    List Nat :=
  (coarse.filter (fun br =>
    decide (br.owner ≠ A) &&
      ownA.any (fun a => decide (minDist2 a.pos br.region ≤ H2)))).map branch.owner

/-- Modelled from the spec: Ghost Exchange (spec section 4.5) — rank A
determines candidate remote ranks from the shared coarse tree, then receives
from each candidate exactly the particles lying within the inflated
interaction radius H2 of one of A's own particles, as read-only ghosts. -/
def refresh_ghosts (H2 : Int) (owned : List (List body)) (A : Nat) : List body :=
  ((candidateRanks H2 ((mpi_branches_exchange owned).getD A []) (owned.getD A []) A).map
    (fun B => (owned.getD B []).filter
      (fun p => (owned.getD A []).any (fun a => decide (dist2 a.pos p.pos ≤ H2))))).flatten

/-- Per-rank state: the particles the rank owns and its current ghost set. -/
structure RankState where
  owned : List body
  ghosts : List body
deriving DecidableEq, Repr

/-- Modelled from the spec: update_neighbors (spec section 4.6) re-runs
Ghost Exchange only — ownership is untouched, each rank's ghost set is
recomputed wholesale from the current owned sets. -/
def update_neighbors (H2 : Int) (sys : List RankState) : List RankState :=
  sys.enum.map (fun p =>
    ⟨p.2.owned, refresh_ghosts H2 (sys.map RankState.owned) p.1⟩)

/-- Wrap freshly redistributed owned sets as rank states with no ghosts. -/
def statesOf (l : List (List body)) : List RankState :=
  l.map (fun o => ⟨o, []⟩)

/-- A node of the local spatial tree: a bounding region that is either a
leaf holding particles or an internal node owning two child regions
(spec section 4.3). -/
inductive ltree where
  | leaf (bx : box) (bs : List body)
  | node (bx : box) (left right : ltree)
deriving DecidableEq, Repr

/-- Coordinate selector for the subdivision axis. -/
def coordAx : Nat → pnt → Int
  | 0, p => p.x
  | 1, p => p.y
  | _ + 2, p => p.z

/-- Left-child region: clamp the upper bound of the split axis to m. -/
def setHiAx (ax : Nat) (bx : box) (m : Int) : box :=
  match ax with
  | 0 => ⟨bx.lo, ⟨m, bx.hi.y, bx.hi.z⟩⟩
  | 1 => ⟨bx.lo, ⟨bx.hi.x, m, bx.hi.z⟩⟩
  | _ + 2 => ⟨bx.lo, ⟨bx.hi.x, bx.hi.y, m⟩⟩

/-- Right-child region: raise the lower bound of the split axis to m. -/
def setLoAx (ax : Nat) (bx : box) (m : Int) : box :=
  match ax with
  | 0 => ⟨⟨m, bx.lo.y, bx.lo.z⟩, bx.hi⟩
  | 1 => ⟨⟨bx.lo.x, m, bx.lo.z⟩, bx.hi⟩
  | _ + 2 => ⟨⟨bx.lo.x, bx.lo.y, m⟩, bx.hi⟩

/-- Modelled from the spec: the Local Tree build (spec section 4.3, tree.h is
not among the visible sources).  A region is subdivided once its occupancy
exceeds the per-leaf capacity cap; children partition the region along one
axis (cycling with depth) with non-overlapping sibling boxes.  fuel bounds
the subdivision depth. -/
def build (cap : Nat) : Nat → box → List body → ltree
  | 0, bx, bs => .leaf bx bs
  | fuel + 1, bx, bs =>
    if bs.length ≤ cap then .leaf bx bs
    else
      let ax := fuel % 3
      let m := (coordAx ax bx.lo + coordAx ax bx.hi) / 2
      .node bx
        (build cap fuel (setHiAx ax bx m)
          (bs.filter (fun b => decide (coordAx ax b.pos ≤ m))))
        (build cap fuel (setLoAx ax bx (m + 1))
          (bs.filter (fun b => !decide (coordAx ax b.pos ≤ m))))

/-- Modelled from the spec: the tree radius query (spec section 4.3): prune
any node whose region cannot reach the query ball, and filter surviving leaf
candidates by exact distance before returning them. -/
def queryRadius (c : pnt) (r2 : Int) : ltree → List body
  | .leaf bx bs =>
    if minDist2 c bx ≤ r2 then bs.filter (fun b => decide (dist2 c b.pos ≤ r2)) else []
  | .node bx l r =>
    if minDist2 c bx ≤ r2 then queryRadius c r2 l ++ queryRadius c r2 r else []

/-- The brute-force all-pairs reference neighbor search from spec section 8. -/
def bruteforceNeighbors (bs : List body) (c : pnt) (r2 : Int) : List body :=
  bs.filter (fun b => decide (dist2 c b.pos ≤ r2))

/-- Embedded from src/app/sedov/main_driver.cc: the loop bound totaliters. -/
def totaliters : Int := 200

/-- Embedded from src/app/sedov/main_driver.cc (mpi_init_task, lines 85-155):
the do-while loop.  The body (update_iteration and the physics kernel
applications, abstracted as an arbitrary state transformer) runs once, iter
is incremented, and the loop repeats while iter < totaliters. -/
def sedovDoWhile {σ : Type} (step : σ → σ) (iter : Int) (st : σ) : σ :=
  if h : iter + 1 < totaliters then sedovDoWhile step (iter + 1) (step st) else step st
termination_by (totaliters - iter).toNat
decreasing_by
  simp only [totaliters] at *
  omega

/-- Embedded from src/app/sedov/main_driver.cc (mpi_init_task): iter starts
at startiteration, is pre-incremented once before the loop, and the do-while
then runs. -/
def sedov_mpi_init_task {σ : Type} (step : σ → σ) (startiteration : Int) (st : σ) : σ :=
  sedovDoWhile step (startiteration + 1) st

/-- Observable outcome of the noh specialization entry point. -/
structure TltOutcome where
  errorReports : Nat
  usageShown : Bool
  taskLaunched : Bool
  aborted : Bool
deriving DecidableEq, Repr

/-- Embedded from src/app/noh/main_driver.cc (specialization_tlt_init, lines
195-207): when argc is not exactly 2 it logs one error line through the
single clog output rank, shows the usage message, and returns without
launching mpi_init_task; otherwise it launches the task.  Neither branch
calls abort or exit: the function returns normally in both cases. -/
def specialization_tlt_init (argc : Nat) : TltOutcome :=
  if argc ≠ 2 then ⟨1, true, false, false⟩
  else ⟨0, false, true, false⟩

lemma bodyLE_tot (a b : body) : (bodyLE a b || bodyLE b a) = true := by
  simp only [bodyLE, Bool.or_eq_true, Bool.and_eq_true, decide_eq_true_eq, beq_iff_eq]
  omega

lemma bodyLE_trans (a b c : body) (h1 : bodyLE a b = true) (h2 : bodyLE b c = true) :
    bodyLE a c = true := by
  simp only [bodyLE, Bool.or_eq_true, Bool.and_eq_true, decide_eq_true_eq,
    beq_iff_eq] at h1 h2 ⊢
  omega

lemma bodyLE_antisymm (a b : body) (h1 : bodyLE a b = true) (h2 : bodyLE b a = true) :
    a.key = b.key ∧ a.id = b.id := by
  simp only [bodyLE, Bool.or_eq_true, Bool.and_eq_true, decide_eq_true_eq,
    beq_iff_eq] at h1 h2
  omega

lemma sorted_perm_eq (l1 : List body) : ∀ (l2 : List body), l1.Perm l2 →
    l1.Pairwise (fun a b => bodyLE a b = true) →
    l2.Pairwise (fun a b => bodyLE a b = true) →
    (∀ a ∈ l1, ∀ c ∈ l1, a.id = c.id → a = c) → l1 = l2 := by
  induction l1 with
  | nil =>
    intro l2 hp _ _ _
    exact (hp.symm.eq_nil).symm
  | cons a t ih =>
    intro l2 hp hs1 hs2 hid
    cases l2 with
    | nil => exact absurd hp.eq_nil (List.cons_ne_nil a t)
    | cons b t2 =>
      have hab : a = b := by
        by_contra hne
        have hbl1 : b ∈ a :: t := hp.symm.mem_iff.1 (List.mem_cons_self b t2)
        have hbt : b ∈ t := by
          rcases List.mem_cons.1 hbl1 with h | h
          · exact absurd h.symm hne
          · exact h
        have hal2 : a ∈ b :: t2 := hp.mem_iff.1 (List.mem_cons_self a t)
        have hat2 : a ∈ t2 := by
          rcases List.mem_cons.1 hal2 with h | h
          · exact absurd h hne
          · exact h
        have h1 : bodyLE a b = true := (List.pairwise_cons.1 hs1).1 b hbt
        have h2 : bodyLE b a = true := (List.pairwise_cons.1 hs2).1 a hat2
        exact hne (hid a (List.mem_cons_self a t) b (List.mem_cons.2 (Or.inr hbt))
          (bodyLE_antisymm a b h1 h2).2)
      subst hab
      have ht : t = t2 := by
        apply ih t2 hp.cons_inv (List.pairwise_cons.1 hs1).2 (List.pairwise_cons.1 hs2).2
        intro x hx y hy hxy
        exact hid x (List.mem_cons.2 (Or.inr hx)) y (List.mem_cons.2 (Or.inr hy)) hxy
      rw [ht]

lemma countP_owner_eq_one : ∀ (bnd : List Nat), List.Sorted (fun a b => a ≤ b) bnd →
    ∀ (h0 m k : Nat), bnd.head? = some h0 → bnd.getLast? = some m →
    h0 ≤ k → k < m →
    (bnd.zip bnd.tail).countP (fun q => ownsKey q k) = 1 := by
  intro bnd
  induction bnd with
  | nil =>
    intro _ h0 m k hh _ _ _
    simp at hh
  | cons b0 tl ih =>
    intro hs h0 m k hh hm hlo hhi
    have hh' : b0 = h0 := by simpa using hh
    cases tl with
    | nil =>
      simp at hm
      exfalso
      omega
    | cons b1 rest =>
      rw [List.getLast?_cons_cons] at hm
      have hzip : (b0 :: b1 :: rest).zip (b0 :: b1 :: rest).tail
          = (b0, b1) :: ((b1 :: rest).zip ((b1 :: rest).tail)) := rfl
      rw [hzip, List.countP_cons]
      have hs' : List.Sorted (fun a b => a ≤ b) (b1 :: rest) := (List.pairwise_cons.1 hs).2
      by_cases hk : k < b1
      · have hown : ownsKey (b0, b1) k = true := by
          simp only [ownsKey, Bool.and_eq_true, decide_eq_true_eq]
          omega
        have hz : ((b1 :: rest).zip ((b1 :: rest).tail)).countP (fun q => ownsKey q k) = 0 := by
          apply List.countP_eq_zero.2
          intro q hq
          rcases q with ⟨x, y⟩
          have hx : x ∈ b1 :: rest := (List.of_mem_zip hq).1
          have hb1 : b1 ≤ x := by
            rcases List.mem_cons.1 hx with h | h
            · omega
            · exact (List.pairwise_cons.1 hs').1 _ h
          simp only [ownsKey, Bool.and_eq_true, decide_eq_true_eq, not_and]
          omega
        rw [hz, hown]
        simp
      · have hown : ownsKey (b0, b1) k = false := by
          simp only [ownsKey, Bool.and_eq_false_iff, decide_eq_false_iff_not]
          omega
        rw [hown]
        simp only [Bool.false_eq_true, if_false, Nat.add_zero]
        exact ih hs' b1 m k rfl hm (by omega) hhi

lemma sum_map_ite_count {α : Type} (p : α → Bool) (c : Nat) :
    ∀ (L : List α), (L.map (fun q => if p q then c else 0)).sum = c * L.countP p := by
  intro L
  induction L with
  | nil => simp
  | cons x l ih =>
    rw [List.map_cons, List.sum_cons, List.countP_cons, ih]
    by_cases hp : p x
    · simp [hp]
      ring
    · simp [hp]

lemma count_filter_eq (p : body → Bool) (b : body) (g : List body) :
    (g.filter p).count b = if p b then g.count b else 0 := by
  by_cases hp : p b
  · rw [List.count_filter hp]
    simp [hp]
  · simp only [hp, Bool.false_eq_true, if_false]
    exact List.count_eq_zero.2 (fun hmem => hp (List.mem_filter.1 hmem).2)

lemma mpi_sort_flatten_perm (bnd : List Nat) (ranks : List (List body)) (h0 m : Nat)
    (hs : List.Sorted (fun a b => a ≤ b) bnd)
    (hh : bnd.head? = some h0) (hm : bnd.getLast? = some m)
    (hcov : ∀ b ∈ ranks.flatten, h0 ≤ b.key ∧ b.key < m) :
    (mpi_sort bnd ranks).flatten.Perm ranks.flatten := by
  apply List.perm_iff_count.2
  intro b
  rw [List.count_flatten]
  unfold mpi_sort
  rw [List.map_map]
  have hcongr : ∀ q ∈ bnd.zip bnd.tail,
      (List.count b ∘ fun q =>
        (ranks.flatten.filter (fun c => ownsKey q c.key)).mergeSort bodyLE) q
        = (fun q => if ownsKey q b.key then ranks.flatten.count b else 0) q := by
    intro q _
    simp only [Function.comp]
    rw [(List.mergeSort_perm _ _).count_eq]
    exact count_filter_eq _ b ranks.flatten
  rw [List.map_congr_left hcongr, sum_map_ite_count]
  by_cases hb : b ∈ ranks.flatten
  · rw [countP_owner_eq_one bnd hs h0 m b.key hh hm (hcov b hb).1 (hcov b hb).2]
    ring
  · rw [List.count_eq_zero.2 hb]
    ring

lemma update_neighbors_owned (H2 : Int) (sys : List RankState) :
    (update_neighbors H2 sys).map RankState.owned = sys.map RankState.owned := by
  unfold update_neighbors
  rw [List.map_map]
  have hco : (RankState.owned ∘ fun p : Nat × RankState =>
      (⟨p.2.owned, refresh_ghosts H2 (sys.map RankState.owned) p.1⟩ : RankState))
      = RankState.owned ∘ Prod.snd := rfl
  rw [hco, ← List.map_map, List.enum_map_snd]

lemma statesOf_owned (l : List (List body)) :
    (statesOf l).map RankState.owned = l := by
  unfold statesOf
  rw [List.map_map]
  have hco : (RankState.owned ∘ fun o : List body => (⟨o, []⟩ : RankState))
      = fun o => o := rfl
  rw [hco]
  exact List.map_id' l

/-- C1: Conservation under Distributed Sort: with a monotone boundary table
covering every particle key and globally unique identifiers, after mpi_sort
the total particle count summed over all ranks equals the input count, the
multiset of particles is unchanged (none created, duplicated or lost), and
each particle's identifier appears in exactly one rank's owned set. -/
theorem mpi_sort_conservation (bnd : List Nat) (ranks : List (List body)) (h0 m : Nat)
    (hs : List.Sorted (fun a b => a ≤ b) bnd)
    (hh : bnd.head? = some h0) (hm : bnd.getLast? = some m)
    (hcov : ∀ b ∈ ranks.flatten, h0 ≤ b.key ∧ b.key < m)
    (hid : ∀ a ∈ ranks.flatten, ∀ c ∈ ranks.flatten, a.id = c.id → a = c) :
    ((mpi_sort bnd ranks).map List.length).sum = ranks.flatten.length
    ∧ (mpi_sort bnd ranks).flatten.Perm ranks.flatten
    ∧ ∀ b ∈ ranks.flatten,
        (mpi_sort bnd ranks).countP (fun l => l.any (fun c => c.id == b.id)) = 1 := by
  have hperm := mpi_sort_flatten_perm bnd ranks h0 m hs hh hm hcov
  refine ⟨?_, hperm, ?_⟩
  · rw [← List.length_flatten]
    exact hperm.length_eq
  · intro b hb
    unfold mpi_sort
    rw [List.countP_map]
    refine Eq.trans (List.countP_congr ?_)
      (countP_owner_eq_one bnd hs h0 m b.key hh hm (hcov b hb).1 (hcov b hb).2)
    intro q _
    simp only [Function.comp]
    constructor
    · intro hany
      obtain ⟨c, hcmem, hcid⟩ := List.any_eq_true.1 hany
      have hcf := List.mem_filter.1 (List.mem_mergeSort.1 hcmem)
      have hcb : c = b := hid c hcf.1 b hb (by simpa using hcid)
      rw [← hcb]
      exact hcf.2
    · intro hwn
      exact List.any_eq_true.2
        ⟨b, List.mem_mergeSort.2 (List.mem_filter.2 ⟨hb, hwn⟩), by simp⟩

/-- C2: Ownership correctness: after mpi_sort, every particle held by rank r
has its key inside the half-open interval [boundary[r], boundary[r+1]) of
the partition boundary table, and the predicate is preserved by
update_neighbors (the ghost-only refresh leaves every owned set unchanged
until the next redistribution). -/
theorem mpi_sort_ownership (bnd : List Nat) (ranks : List (List body)) (r : Nat)
    (H2 : Int) (hr : r + 1 < bnd.length) :
    (∀ b ∈ (mpi_sort bnd ranks).getD r [],
        bnd.getD r 0 ≤ b.key ∧ b.key < bnd.getD (r + 1) 0)
    ∧ (update_neighbors H2 (statesOf (mpi_sort bnd ranks))).map RankState.owned
        = mpi_sort bnd ranks := by
  constructor
  · have hr0 : r < bnd.length := by omega
    have hzq : (bnd.zip bnd.tail)[r]? = some (bnd.getD r 0, bnd.getD (r + 1) 0) := by
      apply List.getElem?_zip_eq_some.2
      constructor
      · rw [List.getD_eq_getElem bnd 0 hr0]
        exact List.getElem?_eq_getElem hr0
      · rw [List.getElem?_tail, List.getD_eq_getElem bnd 0 hr]
        exact List.getElem?_eq_getElem hr
    have hget : (mpi_sort bnd ranks).getD r []
        = (ranks.flatten.filter
            (fun b => ownsKey (bnd.getD r 0, bnd.getD (r + 1) 0) b.key)).mergeSort bodyLE := by
      unfold mpi_sort
      rw [List.getD_eq_getElem?_getD, List.getElem?_map, hzq]
      rfl
    intro b hb
    rw [hget] at hb
    have hbf := List.mem_filter.1 (List.mem_mergeSort.1 hb)
    have := hbf.2
    simp only [ownsKey, Bool.and_eq_true, decide_eq_true_eq] at this
    exact this
  · rw [update_neighbors_owned, statesOf_owned]

/-- C3: Determinism of Distributed Sort: mpi_sort applied to any two initial
distributions of the same global multiset of particles (in particular, to
the same input twice), with the same boundary table, produces identical
per-rank owned lists, because key comparison is total with ties broken by
the stable identifier. -/
theorem mpi_sort_deterministic (bnd : List Nat) (ranks1 ranks2 : List (List body))
    (hperm : ranks1.flatten.Perm ranks2.flatten)
    (hid : ∀ a ∈ ranks1.flatten, ∀ c ∈ ranks1.flatten, a.id = c.id → a = c) :
    mpi_sort bnd ranks1 = mpi_sort bnd ranks2 := by
  unfold mpi_sort
  apply List.map_congr_left
  intro q _
  apply sorted_perm_eq
  · exact (List.mergeSort_perm _ _).trans
      ((hperm.filter _).trans (List.mergeSort_perm _ _).symm)
  · exact List.sorted_mergeSort bodyLE_trans bodyLE_tot _
  · exact List.sorted_mergeSort bodyLE_trans bodyLE_tot _
  · intro a ha c hc heq
    exact hid a (List.mem_filter.1 (List.mem_mergeSort.1 ha)).1
      c (List.mem_filter.1 (List.mem_mergeSort.1 hc)).1 heq

lemma update_neighbors_ghosts (H2 : Int) (sys : List RankState) :
    (update_neighbors H2 sys).map RankState.ghosts
      = (List.range sys.length).map (refresh_ghosts H2 (sys.map RankState.owned)) := by
  unfold update_neighbors
  rw [List.map_map]
  have hco : (RankState.ghosts ∘ fun p : Nat × RankState =>
      (⟨p.2.owned, refresh_ghosts H2 (sys.map RankState.owned) p.1⟩ : RankState))
      = refresh_ghosts H2 (sys.map RankState.owned) ∘ Prod.fst := rfl
  rw [hco, ← List.map_map, List.enum_map_fst]

lemma update_neighbors_length (H2 : Int) (sys : List RankState) :
    (update_neighbors H2 sys).length = sys.length := by
  unfold update_neighbors
  rw [List.length_map, List.enum_length]

/-- C5: Idempotence of update_neighbors: applying the ghost refresh twice in
succession with no particle changed in between yields the same ghost set on
every rank as applying it once, because refresh_ghosts is recomputed from
the owned sets, which the refresh leaves untouched. -/
theorem update_neighbors_idempotent (H2 : Int) (sys : List RankState) :
    (update_neighbors H2 (update_neighbors H2 sys)).map RankState.ghosts
      = (update_neighbors H2 sys).map RankState.ghosts := by
  rw [update_neighbors_ghosts, update_neighbors_ghosts, update_neighbors_length,
    update_neighbors_owned]

lemma axdist_sq_le (c lo hi p : Int) (h1 : lo ≤ p) (h2 : p ≤ hi) :
    axdist c lo hi ^ 2 ≤ (c - p) ^ 2 := by
  unfold axdist
  rcases le_total (lo - c) (max 0 (c - hi)) with h | h
  · rw [max_eq_right h]
    rcases le_total 0 (c - hi) with h' | h'
    · rw [max_eq_right h']
      nlinarith [mul_nonneg (show (0 : Int) ≤ hi - p by omega)
        (show (0 : Int) ≤ 2 * c - p - hi by omega)]
    · rw [max_eq_left h']
      nlinarith [sq_nonneg (c - p)]
  · rw [max_eq_left h]
    have h0 : 0 ≤ lo - c := le_trans (le_max_left _ _) h
    nlinarith [mul_nonneg (show (0 : Int) ≤ p - lo by omega)
      (show (0 : Int) ≤ p + lo - 2 * c by omega)]

lemma minDist2_le_dist2 (c : pnt) (bx : box) (p : pnt) (h : inBox bx p = true) :
    minDist2 c bx ≤ dist2 c p := by
  simp only [inBox, Bool.and_eq_true, decide_eq_true_eq] at h
  obtain ⟨⟨⟨⟨⟨h1, h2⟩, h3⟩, h4⟩, h5⟩, h6⟩ := h
  unfold minDist2 dist2
  have hx := axdist_sq_le c.x bx.lo.x bx.hi.x p.x h1 h2
  have hy := axdist_sq_le c.y bx.lo.y bx.hi.y p.y h3 h4
  have hz := axdist_sq_le c.z bx.lo.z bx.hi.z p.z h5 h6
  linarith

lemma inBox_extendBox (bx : box) (q p : pnt) (h : inBox bx p = true) :
    inBox (extendBox bx q) p = true := by
  simp only [inBox, extendBox, Bool.and_eq_true, decide_eq_true_eq] at h ⊢
  omega

lemma inBox_extendBox_self (bx : box) (q : pnt) : inBox (extendBox bx q) q = true := by
  simp only [inBox, extendBox, Bool.and_eq_true, decide_eq_true_eq]
  omega

lemma inBox_pointBox (p : pnt) : inBox (pointBox p) p = true := by
  simp [inBox, pointBox]

lemma inBox_foldl (l : List body) : ∀ (bx : box) (p : pnt), inBox bx p = true →
    inBox (l.foldl (fun b c => extendBox b c.pos) bx) p = true := by
  induction l with
  | nil =>
    intro bx p h
    exact h
  | cons a t ih =>
    intro bx p h
    rw [List.foldl_cons]
    exact ih _ p (inBox_extendBox bx a.pos p h)

lemma mem_foldl_inBox (l : List body) : ∀ (bx : box) (q : body), q ∈ l →
    inBox (l.foldl (fun b c => extendBox b c.pos) bx) q.pos = true := by
  induction l with
  | nil =>
    intro bx q h
    simp at h
  | cons a t ih =>
    intro bx q h
    rw [List.foldl_cons]
    rcases List.mem_cons.1 h with h | h
    · subst h
      exact inBox_foldl t _ q.pos (inBox_extendBox_self bx q.pos)
    · exact ih _ q h

lemma bboxOf_mem (bs : List body) (bx : box) (hb : bboxOf bs = some bx) :
    ∀ q ∈ bs, inBox bx q.pos = true := by
  cases bs with
  | nil => simp [bboxOf] at hb
  | cons b rest =>
    simp only [bboxOf, Option.some_inj] at hb
    intro q hq
    subst hb
    rcases List.mem_cons.1 hq with h | h
    · subst h
      exact inBox_foldl rest _ q.pos (inBox_pointBox q.pos)
    · exact mem_foldl_inBox rest _ q h

lemma bboxOf_isSome (bs : List body) (hne : bs ≠ []) : ∃ bx, bboxOf bs = some bx := by
  cases bs with
  | nil => exact absurd rfl hne
  | cons b rest => exact ⟨_, rfl⟩

lemma exchange_getD (owned : List (List body)) (r : Nat) (hr : r < owned.length) :
    (mpi_branches_exchange owned).getD r []
      = ((List.range owned.length).map (fun s => branchOf s (owned.getD s []))).flatten := by
  unfold mpi_branches_exchange
  rw [List.getD_eq_getElem _ _ (by rw [List.length_replicate]; exact hr)]
  exact List.getElem_replicate _ _

/-- C6: Ghost symmetry: whenever a particle P owned by rank B lies within the
inflated interaction radius of a particle owned by rank A, the ghost set
received by A contains P; and the candidate decision is reproducible from
the shared coarse tree alone, since every rank's received coarse view is the
same. -/
theorem ghost_symmetry (H2 : Int) (owned : List (List body)) (A B : Nat) (P a : body)
    (hA : A < owned.length) (hB : B < owned.length) (hBA : B ≠ A)
    (hP : P ∈ owned.getD B []) (ha : a ∈ owned.getD A [])
    (hd : dist2 a.pos P.pos ≤ H2) :
    P ∈ refresh_ghosts H2 owned A
    ∧ ∀ r1 r2, r1 < owned.length → r2 < owned.length →
        candidateRanks H2 ((mpi_branches_exchange owned).getD r1 []) (owned.getD A []) A
          = candidateRanks H2 ((mpi_branches_exchange owned).getD r2 []) (owned.getD A []) A := by
  constructor
  · obtain ⟨bx, hbx⟩ := bboxOf_isSome (owned.getD B []) (List.ne_nil_of_mem hP)
    have hPbox : inBox bx P.pos = true := bboxOf_mem _ bx hbx P hP
    unfold refresh_ghosts
    apply List.mem_flatten.2
    refine ⟨(owned.getD B []).filter
      (fun p => (owned.getD A []).any (fun x => decide (dist2 x.pos p.pos ≤ H2))), ?_, ?_⟩
    · have hBmem : B ∈ candidateRanks H2 ((mpi_branches_exchange owned).getD A [])
          (owned.getD A []) A := by
        unfold candidateRanks
        apply List.mem_map.2
        refine ⟨⟨B, bx⟩, ?_, rfl⟩
        apply List.mem_filter.2
        constructor
        · rw [exchange_getD owned A hA]
          apply List.mem_flatten.2
          refine ⟨branchOf B (owned.getD B []), List.mem_map_of_mem _ (List.mem_range.2 hB), ?_⟩
          rw [branchOf, hbx]
          exact List.mem_singleton.2 rfl
        · simp only [Bool.and_eq_true, decide_eq_true_eq]
          refine ⟨hBA, List.any_eq_true.2 ⟨a, ha, ?_⟩⟩
          simp only [decide_eq_true_eq]
          exact le_trans (minDist2_le_dist2 a.pos bx P.pos hPbox) hd
      exact List.mem_map_of_mem _ hBmem
    · apply List.mem_filter.2
      refine ⟨hP, List.any_eq_true.2 ⟨a, ha, ?_⟩⟩
      simp only [decide_eq_true_eq]
      exact hd
  · intro r1 r2 hr1 hr2
    rw [exchange_getD owned r1 hr1, exchange_getD owned r2 hr2]

/-- C7: Coarse-tree agreement after Branch Exchange: every pair of ranks
receives an identical coarse view (same branches, same owning-rank
annotation), and the assembled view is fully determined by the per-rank
branch contributions — two systems with equal branch contributions produce
the same exchange result, so no leaf-level particle data is required. -/
theorem mpi_branches_exchange_agreement (owned owned2 : List (List body)) (r1 r2 : Nat)
    (h1 : r1 < owned.length) (h2 : r2 < owned.length) :
    (mpi_branches_exchange owned).getD r1 [] = (mpi_branches_exchange owned).getD r2 []
    ∧ (owned.length = owned2.length →
        (∀ r, branchOf r (owned.getD r []) = branchOf r (owned2.getD r [])) →
        mpi_branches_exchange owned = mpi_branches_exchange owned2) := by
  constructor
  · rw [exchange_getD owned r1 h1, exchange_getD owned r2 h2]
  · intro hlen hbr
    unfold mpi_branches_exchange
    rw [hlen]
    congr 1
    congr 1
    apply List.map_congr_left
    intro r _
    exact hbr r

lemma length_le_sum_of_ne_nil {α : Type} : ∀ (L : List (List α)), (∀ l ∈ L, l ≠ []) →
    L.length ≤ (L.map List.length).sum := by
  intro L
  induction L with
  | nil => simp
  | cons x t ih =>
    intro h
    rw [List.length_cons, List.map_cons, List.sum_cons]
    have hx : 0 < x.length := List.length_pos_of_ne_nil (h x (List.mem_cons_self x t))
    have ht := ih (fun l hl => h l (List.mem_cons.2 (Or.inr hl)))
    omega

/-- C8: Empty ranks are not errors: with more ranks than particles,
Distributed Sort still completes, producing the full complement of per-rank
output lists with at least one of them empty; a rank with no particles
contributes an empty branch set and an empty sample, and nothing fails. -/
theorem mpi_sort_empty_ranks (bnd : List Nat) (ranks : List (List body)) (h0 m : Nat)
    (hs : List.Sorted (fun a b => a ≤ b) bnd)
    (hh : bnd.head? = some h0) (hm : bnd.getLast? = some m)
    (hcov : ∀ b ∈ ranks.flatten, h0 ≤ b.key ∧ b.key < m)
    (hfew : ranks.flatten.length < bnd.length - 1) :
    (∃ r < bnd.length - 1, (mpi_sort bnd ranks).getD r [] = [])
    ∧ (mpi_sort bnd ranks).length = bnd.length - 1
    ∧ (∀ r, branchOf r [] = []) ∧ sampleOf [] = [] := by
  have hlen : (mpi_sort bnd ranks).length = bnd.length - 1 := by
    unfold mpi_sort
    simp only [List.length_map, List.length_zip, List.length_tail]
    omega
  refine ⟨?_, hlen, fun r => rfl, rfl⟩
  by_contra hc
  push_neg at hc
  have hall : ∀ l ∈ mpi_sort bnd ranks, l ≠ [] := by
    intro l hl
    obtain ⟨i, hi, hieq⟩ := List.mem_iff_getElem.1 hl
    have hgd : (mpi_sort bnd ranks).getD i [] = l := by
      rw [List.getD_eq_getElem _ _ hi]
      exact hieq
    rw [← hgd]
    exact hc i (by omega)
  have hlower := length_le_sum_of_ne_nil _ hall
  have hsum : ((mpi_sort bnd ranks).map List.length).sum = ranks.flatten.length := by
    rw [← List.length_flatten]
    exact (mpi_sort_flatten_perm bnd ranks h0 m hs hh hm hcov).length_eq
  omega

lemma inBox_setHiAx (ax : Nat) (bx : box) (m : Int) (p : pnt)
    (h : inBox bx p = true) (hc : coordAx ax p ≤ m) :
    inBox (setHiAx ax bx m) p = true := by
  rcases ax with _ | _ | ax <;>
    (simp only [inBox, setHiAx, coordAx, Bool.and_eq_true, decide_eq_true_eq] at h hc ⊢
     omega)

lemma inBox_setLoAx (ax : Nat) (bx : box) (m : Int) (p : pnt)
    (h : inBox bx p = true) (hc : m ≤ coordAx ax p) :
    inBox (setLoAx ax bx m) p = true := by
  rcases ax with _ | _ | ax <;>
    (simp only [inBox, setLoAx, coordAx, Bool.and_eq_true, decide_eq_true_eq] at h hc ⊢
     omega)

lemma bruteforce_eq_nil_of_prune (c : pnt) (r2 : Int) (bx : box) (bs : List body)
    (hin : ∀ b ∈ bs, inBox bx b.pos = true) (hpr : ¬ minDist2 c bx ≤ r2) :
    bruteforceNeighbors bs c r2 = [] := by
  unfold bruteforceNeighbors
  apply List.filter_eq_nil_iff.2
  intro b hb
  have hle := minDist2_le_dist2 c bx b.pos (hin b hb)
  simp only [decide_eq_true_eq]
  omega

lemma query_leaf_perm (c : pnt) (r2 : Int) (bx : box) (bs : List body)
    (hin : ∀ b ∈ bs, inBox bx b.pos = true) :
    (queryRadius c r2 (.leaf bx bs)).Perm (bruteforceNeighbors bs c r2) := by
  by_cases hpr : minDist2 c bx ≤ r2
  · simp only [queryRadius, if_pos hpr]
    unfold bruteforceNeighbors
    exact List.Perm.refl _
  · simp only [queryRadius, if_neg hpr]
    rw [bruteforce_eq_nil_of_prune c r2 bx bs hin hpr]

lemma perm_filter_split (q p : body → Bool) (bs : List body) :
    ((bs.filter p).filter q ++ (bs.filter (fun b => !p b)).filter q).Perm (bs.filter q) := by
  rw [← List.filter_append]
  exact (List.filter_append_perm p bs).filter q

lemma queryRadius_build_perm (cap : Nat) (c : pnt) (r2 : Int) :
    ∀ (fuel : Nat) (bx : box) (bs : List body),
    (∀ b ∈ bs, inBox bx b.pos = true) →
    (queryRadius c r2 (build cap fuel bx bs)).Perm (bruteforceNeighbors bs c r2) := by
  intro fuel
  induction fuel with
  | zero =>
    intro bx bs hin
    simp only [build]
    exact query_leaf_perm c r2 bx bs hin
  | succ fuel ih =>
    intro bx bs hin
    by_cases hcap : bs.length ≤ cap
    · simp only [build, if_pos hcap]
      exact query_leaf_perm c r2 bx bs hin
    · simp only [build, if_neg hcap]
      by_cases hpr : minDist2 c bx ≤ r2
      · simp only [queryRadius, if_pos hpr]
        have hL := ih (setHiAx (fuel % 3) bx
            ((coordAx (fuel % 3) bx.lo + coordAx (fuel % 3) bx.hi) / 2))
          (bs.filter (fun b => decide (coordAx (fuel % 3) b.pos ≤
            (coordAx (fuel % 3) bx.lo + coordAx (fuel % 3) bx.hi) / 2))) ?_
        · have hR := ih (setLoAx (fuel % 3) bx
              ((coordAx (fuel % 3) bx.lo + coordAx (fuel % 3) bx.hi) / 2 + 1))
            (bs.filter (fun b => !decide (coordAx (fuel % 3) b.pos ≤
              (coordAx (fuel % 3) bx.lo + coordAx (fuel % 3) bx.hi) / 2))) ?_
          · refine (hL.append hR).trans ?_
            unfold bruteforceNeighbors
            exact perm_filter_split _ _ bs
          · intro b hb
            have hbf := List.mem_filter.1 hb
            have hc : ¬ coordAx (fuel % 3) b.pos ≤
                (coordAx (fuel % 3) bx.lo + coordAx (fuel % 3) bx.hi) / 2 := by
              have := hbf.2
              simp only [Bool.not_eq_eq_eq_not, Bool.not_true, decide_eq_false_iff_not] at this
              exact this
            exact inBox_setLoAx _ bx _ b.pos (hin b hbf.1) (by omega)
        · intro b hb
          have hbf := List.mem_filter.1 hb
          have hc : coordAx (fuel % 3) b.pos ≤
              (coordAx (fuel % 3) bx.lo + coordAx (fuel % 3) bx.hi) / 2 := by
            have := hbf.2
            simp only [decide_eq_true_eq] at this
            exact this
          exact inBox_setHiAx _ bx _ b.pos (hin b hbf.1) hc
      · simp only [queryRadius, if_neg hpr]
        rw [bruteforce_eq_nil_of_prune c r2 bx bs hin hpr]

/-- C4: Radius-query completeness: for every particle set held locally (the
rank's owned particles plus the ghosts delivered by Ghost Exchange) and
every query center, the tree-based radius search over the built local tree
returns exactly the neighbor set of the brute-force all-pairs distance check
— no false negatives, and every over-inclusive candidate is removed by the
exact-distance filter before being returned. -/
theorem radius_query_complete (cap fuel : Nat) (bx : box) (H2 r2 : Int)
    (owned : List (List body)) (A : Nat) (c : pnt)
    (hin : ∀ b ∈ owned.getD A [] ++ refresh_ghosts H2 owned A, inBox bx b.pos = true) :
    (queryRadius c r2
        (build cap fuel bx (owned.getD A [] ++ refresh_ghosts H2 owned A))).Perm
      (bruteforceNeighbors (owned.getD A [] ++ refresh_ghosts H2 owned A) c r2) :=
  queryRadius_build_perm cap c r2 fuel bx _ hin

lemma sedovDoWhile_iterate : ∀ (n : Nat) (it : Int), (totaliters - it).toNat ≤ n →
    ∀ {σ : Type} (step : σ → σ) (st : σ),
    sedovDoWhile step it st = step^[(max 1 (totaliters - it)).toNat] st := by
  intro n
  induction n with
  | zero =>
    intro it hn σ step st
    have hit : ¬ it + 1 < totaliters := by
      simp only [totaliters] at hn ⊢
      omega
    unfold sedovDoWhile
    rw [dif_neg hit]
    have hmax : (max 1 (totaliters - it)).toNat = 1 := by
      simp only [totaliters] at hn ⊢
      omega
    rw [hmax]
    rfl
  | succ n ihn =>
    intro it hn σ step st
    by_cases hit : it + 1 < totaliters
    · unfold sedovDoWhile
      rw [dif_pos hit]
      rw [ihn (it + 1) (by simp only [totaliters] at hn hit ⊢; omega) step (step st)]
      have hmax : (max 1 (totaliters - it)).toNat
          = (max 1 (totaliters - (it + 1))).toNat + 1 := by
        simp only [totaliters] at hit ⊢
        omega
      rw [hmax, Function.iterate_succ_apply]
    · unfold sedovDoWhile
      rw [dif_neg hit]
      have hmax : (max 1 (totaliters - it)).toNat = 1 := by
        simp only [totaliters] at hit ⊢
        omega
      rw [hmax]
      rfl

/-- C10: Sedov driver loop termination and count: for every integer
startiteration, the sedov mpi_init_task do-while loop terminates and
executes its body (update_iteration plus the physics kernels, abstracted as
an arbitrary state transformer) exactly max(1, 199 - startiteration) times;
in particular for startiteration at or above 199 the body still runs once,
because the do-while tests its condition only after the first pass. -/
theorem sedov_loop_count {σ : Type} (step : σ → σ) (startiteration : Int) (st : σ) :
    sedov_mpi_init_task step startiteration st
      = step^[(max 1 (199 - startiteration)).toNat] st := by
  unfold sedov_mpi_init_task
  rw [sedovDoWhile_iterate (totaliters - (startiteration + 1)).toNat (startiteration + 1)
    (le_refl _) step st]
  have harith : totaliters - (startiteration + 1) = 199 - startiteration := by
    simp only [totaliters]
    ring
  rw [harith]

/-- C9 counterexample: the claim says a missing parameter file is fatal and
the run aborts; in the embedded specialization_tlt_init from the noh driver,
invoking with argc = 1 (no parameter file) reports the error once and
returns with the task not launched, but does not abort the run. -/
theorem tlt_init_no_abort :
    (specialization_tlt_init 1).aborted = false
    ∧ (specialization_tlt_init 1).errorReports = 1
    ∧ (specialization_tlt_init 1).taskLaunched = false := by
  refine ⟨rfl, rfl, rfl⟩

/-- C9 (amended): for every invocation whose command line does not carry
exactly the parameter-file argument (argc not 2), the error is reported
exactly once through the designated output rank, the usage message is shown,
and the simulation task is never launched — but the entry point returns
normally rather than aborting the run. -/
theorem tlt_init_error_behavior (argc : Nat) (h : argc ≠ 2) :
    (specialization_tlt_init argc).errorReports = 1
    ∧ (specialization_tlt_init argc).usageShown = true
    ∧ (specialization_tlt_init argc).taskLaunched = false
    ∧ (specialization_tlt_init argc).aborted = false := by
  unfold specialization_tlt_init
  rw [if_pos h]
  exact ⟨rfl, rfl, rfl, rfl⟩

theorem mpi_sort_conservation_witness :
    ((mpi_sort [0, 5, 10] [[⟨0, 7, ⟨0, 0, 0⟩⟩], [⟨1, 2, ⟨1, 0, 0⟩⟩]]).map List.length).sum
      = ([[⟨0, 7, ⟨0, 0, 0⟩⟩], [⟨1, 2, ⟨1, 0, 0⟩⟩]] : List (List body)).flatten.length
    ∧ (mpi_sort [0, 5, 10] [[⟨0, 7, ⟨0, 0, 0⟩⟩], [⟨1, 2, ⟨1, 0, 0⟩⟩]]).flatten.Perm
        ([[⟨0, 7, ⟨0, 0, 0⟩⟩], [⟨1, 2, ⟨1, 0, 0⟩⟩]] : List (List body)).flatten
    ∧ ∀ b ∈ ([[⟨0, 7, ⟨0, 0, 0⟩⟩], [⟨1, 2, ⟨1, 0, 0⟩⟩]] : List (List body)).flatten,
        (mpi_sort [0, 5, 10] [[⟨0, 7, ⟨0, 0, 0⟩⟩], [⟨1, 2, ⟨1, 0, 0⟩⟩]]).countP
          (fun l => l.any (fun c => c.id == b.id)) = 1 :=
  mpi_sort_conservation [0, 5, 10] [[⟨0, 7, ⟨0, 0, 0⟩⟩], [⟨1, 2, ⟨1, 0, 0⟩⟩]] 0 10
    (by decide) (by decide) (by decide) (by decide) (by decide)

theorem mpi_sort_ownership_witness :
    (∀ b ∈ (mpi_sort [0, 5, 10] [[⟨0, 7, ⟨0, 0, 0⟩⟩], [⟨1, 2, ⟨1, 0, 0⟩⟩]]).getD 0 [],
        [0, 5, 10].getD 0 0 ≤ b.key ∧ b.key < [0, 5, 10].getD (0 + 1) 0)
    ∧ (update_neighbors 0 (statesOf
          (mpi_sort [0, 5, 10] [[⟨0, 7, ⟨0, 0, 0⟩⟩], [⟨1, 2, ⟨1, 0, 0⟩⟩]]))).map
        RankState.owned
      = mpi_sort [0, 5, 10] [[⟨0, 7, ⟨0, 0, 0⟩⟩], [⟨1, 2, ⟨1, 0, 0⟩⟩]] :=
  mpi_sort_ownership [0, 5, 10] [[⟨0, 7, ⟨0, 0, 0⟩⟩], [⟨1, 2, ⟨1, 0, 0⟩⟩]] 0 0 (by decide)

theorem mpi_sort_deterministic_witness :
    mpi_sort [0, 5] [[⟨0, 1, ⟨0, 0, 0⟩⟩], [⟨1, 3, ⟨1, 0, 0⟩⟩]]
      = mpi_sort [0, 5] [[⟨1, 3, ⟨1, 0, 0⟩⟩], [⟨0, 1, ⟨0, 0, 0⟩⟩]] :=
  mpi_sort_deterministic [0, 5] [[⟨0, 1, ⟨0, 0, 0⟩⟩], [⟨1, 3, ⟨1, 0, 0⟩⟩]]
    [[⟨1, 3, ⟨1, 0, 0⟩⟩], [⟨0, 1, ⟨0, 0, 0⟩⟩]] (by decide) (by decide)

theorem radius_query_complete_witness :
    (queryRadius ⟨0, 0, 0⟩ 4
        (build 0 2 ⟨⟨-2, -2, -2⟩, ⟨2, 2, 2⟩⟩
          (([[⟨0, 0, ⟨0, 0, 0⟩⟩], [⟨1, 1, ⟨1, 0, 0⟩⟩]] : List (List body)).getD 0 []
            ++ refresh_ghosts 100 [[⟨0, 0, ⟨0, 0, 0⟩⟩], [⟨1, 1, ⟨1, 0, 0⟩⟩]] 0))).Perm
      (bruteforceNeighbors
        (([[⟨0, 0, ⟨0, 0, 0⟩⟩], [⟨1, 1, ⟨1, 0, 0⟩⟩]] : List (List body)).getD 0 []
          ++ refresh_ghosts 100 [[⟨0, 0, ⟨0, 0, 0⟩⟩], [⟨1, 1, ⟨1, 0, 0⟩⟩]] 0)
        ⟨0, 0, 0⟩ 4) :=
  radius_query_complete 0 2 ⟨⟨-2, -2, -2⟩, ⟨2, 2, 2⟩⟩ 100 4
    [[⟨0, 0, ⟨0, 0, 0⟩⟩], [⟨1, 1, ⟨1, 0, 0⟩⟩]] 0 ⟨0, 0, 0⟩ (by decide)

theorem ghost_symmetry_witness :
    (⟨1, 1, ⟨1, 0, 0⟩⟩ : body) ∈
        refresh_ghosts 100 [[⟨0, 0, ⟨0, 0, 0⟩⟩], [⟨1, 1, ⟨1, 0, 0⟩⟩]] 0
    ∧ ∀ r1 r2, r1 < ([[⟨0, 0, ⟨0, 0, 0⟩⟩], [⟨1, 1, ⟨1, 0, 0⟩⟩]] : List (List body)).length →
        r2 < ([[⟨0, 0, ⟨0, 0, 0⟩⟩], [⟨1, 1, ⟨1, 0, 0⟩⟩]] : List (List body)).length →
        candidateRanks 100
            ((mpi_branches_exchange [[⟨0, 0, ⟨0, 0, 0⟩⟩], [⟨1, 1, ⟨1, 0, 0⟩⟩]]).getD r1 [])
            (([[⟨0, 0, ⟨0, 0, 0⟩⟩], [⟨1, 1, ⟨1, 0, 0⟩⟩]] : List (List body)).getD 0 []) 0
          = candidateRanks 100
            ((mpi_branches_exchange [[⟨0, 0, ⟨0, 0, 0⟩⟩], [⟨1, 1, ⟨1, 0, 0⟩⟩]]).getD r2 [])
            (([[⟨0, 0, ⟨0, 0, 0⟩⟩], [⟨1, 1, ⟨1, 0, 0⟩⟩]] : List (List body)).getD 0 []) 0 :=
  ghost_symmetry 100 [[⟨0, 0, ⟨0, 0, 0⟩⟩], [⟨1, 1, ⟨1, 0, 0⟩⟩]] 0 1
    ⟨1, 1, ⟨1, 0, 0⟩⟩ ⟨0, 0, ⟨0, 0, 0⟩⟩
    (by decide) (by decide) (by decide) (by decide) (by decide) (by decide)

theorem mpi_branches_exchange_agreement_witness :
    (mpi_branches_exchange [[⟨0, 0, ⟨0, 0, 0⟩⟩], []]).getD 0 []
      = (mpi_branches_exchange [[⟨0, 0, ⟨0, 0, 0⟩⟩], []]).getD 1 []
    ∧ (([[⟨0, 0, ⟨0, 0, 0⟩⟩], []] : List (List body)).length
          = ([[⟨0, 0, ⟨0, 0, 0⟩⟩], []] : List (List body)).length →
        (∀ r, branchOf r (([[⟨0, 0, ⟨0, 0, 0⟩⟩], []] : List (List body)).getD r [])
            = branchOf r (([[⟨0, 0, ⟨0, 0, 0⟩⟩], []] : List (List body)).getD r [])) →
        mpi_branches_exchange [[⟨0, 0, ⟨0, 0, 0⟩⟩], []]
          = mpi_branches_exchange [[⟨0, 0, ⟨0, 0, 0⟩⟩], []]) :=
  mpi_branches_exchange_agreement [[⟨0, 0, ⟨0, 0, 0⟩⟩], []] [[⟨0, 0, ⟨0, 0, 0⟩⟩], []]
    0 1 (by decide) (by decide)

theorem mpi_sort_empty_ranks_witness :
    (∃ r < ([0, 5, 10] : List Nat).length - 1,
        (mpi_sort [0, 5, 10] [[⟨0, 1, ⟨0, 0, 0⟩⟩]]).getD r [] = [])
    ∧ (mpi_sort [0, 5, 10] [[⟨0, 1, ⟨0, 0, 0⟩⟩]]).length = ([0, 5, 10] : List Nat).length - 1
    ∧ (∀ r, branchOf r [] = []) ∧ sampleOf [] = [] :=
  mpi_sort_empty_ranks [0, 5, 10] [[⟨0, 1, ⟨0, 0, 0⟩⟩]] 0 10
    (by decide) (by decide) (by decide) (by decide) (by decide)

theorem tlt_init_error_behavior_witness :
    (3 : Nat) ≠ 2
    ∧ ((specialization_tlt_init 3).errorReports = 1
        ∧ (specialization_tlt_init 3).usageShown = true
        ∧ (specialization_tlt_init 3).taskLaunched = false
        ∧ (specialization_tlt_init 3).aborted = false) :=
  ⟨by decide, tlt_init_error_behavior 3 (by decide)⟩
